/-
Verification development for a Monte Carlo option-pricing engine.

The development shallowly embeds the C++ sources:
  SDE.hpp       : stochastic models (GBM, CEV)
  Fdm.hpp       : time-stepping schemes (FdmBase grid, Euler, Milstein, Exact)
  MCMediator.hpp: the orchestration loop emitting path / finish events
  Pricers.hpp   : the four payoff accumulators (European, Asian, Barrier,
                  BrownianBridge)

Doubles are modelled as real numbers.   Undefined behaviour (taking the last
element of an empty vector) and IEEE division by a zero path length are
modelled by Option-valued processing functions returning none.  Pseudo-random
generators are modelled as streams of real numbers consumed in order.
-/
import Mathlib

noncomputable section
open Classical

/-! ## SDE.hpp : stochastic models -/

/-- Interface ISde of SDE.hpp: drift, diffusion, corrected drift, diffusion
derivative, initial condition and expiry. -/
structure Sde where
  Drift : ℝ → ℝ → ℝ
  Diffusion : ℝ → ℝ → ℝ
  DriftCorrected : ℝ → ℝ → ℝ → ℝ
  DiffusionDerivative : ℝ → ℝ → ℝ
  ic : ℝ
  expiry : ℝ

/-- GBM of SDE.hpp: drift (mu - div)x, diffusion vol*x, diffusion
derivative vol, corrected drift Drift - B*Diffusion*DiffusionDerivative. -/
def GBM (mu vol div icv expv : ℝ) : Sde :=
  let drift := fun (x _t : ℝ) => (mu - div) * x
  let diffusion := fun (x _t : ℝ) => vol * x
  let diffusionDerivative := fun (_x _t : ℝ) => vol
  { Drift := drift
    Diffusion := diffusion
    DriftCorrected := fun x t B =>
      drift x t - B * diffusion x t * diffusionDerivative x t
    DiffusionDerivative := diffusionDerivative
    ic := icv
    expiry := expv }

/-- CEV of SDE.hpp.  The constructor rescales the diffusion coefficient:
vol = diffusionCoefficient * pow(InitialCondition(), 1 - b), and
Diffusion(x,t) = vol * pow(x, b).  The diffusion derivative branches on
b > 1 exactly as in the source. -/
def CEV (mu sigma d icv expv b : ℝ) : Sde :=
  let vol := sigma * icv ^ ((1 : ℝ) - b)
  let drift := fun (x _t : ℝ) => (mu - d) * x
  let diffusion := fun (x _t : ℝ) => vol * x ^ b
  let diffusionDerivative := fun (x _t : ℝ) =>
    if 1 < b then vol * b * x ^ (b - 1) else vol * b / x ^ ((1 : ℝ) - b)
  { Drift := drift
    Diffusion := diffusion
    DriftCorrected := fun x t B =>
      drift x t - B * diffusion x t * diffusionDerivative x t
    DiffusionDerivative := diffusionDerivative
    ic := icv
    expiry := expv }

/-- Modelled from the spec: the claimed CEV diffusion function
sigma * x^beta (section 4.1 of the spec), to be compared with the
source definition CEV. -/
def specCEVDiffusion (sigma beta x : ℝ) : ℝ := sigma * x ^ beta

/-! ## Fdm.hpp : grid and time-stepping schemes -/

/-- The grid recurrence of the FdmBase constructor: x[0] = 0,
x[n] = x[n-1] + k. -/
def gridFn (k : ℝ) : ℕ → ℝ
  | 0 => 0
  | n + 1 => gridFn k n + k

/-- State stored by FdmBase: the SDE, the number of subdivisions NT, the
step k = Expiry/NT, dtSqrt = sqrt k, and the mesh vector x. -/
structure Fdm where
  sde : Sde
  NT : ℕ
  k : ℝ
  dtSqrt : ℝ
  x : List ℝ

/-- The FdmBase constructor: k = sde->Expiry()/NT, dtSqrt = sqrt(k),
x[0] = 0 and x[n] = x[n-1] + k for n = 1..NT. -/
def mkFdm (sde : Sde) (NT : ℕ) : Fdm :=
  let k := sde.expiry / (NT : ℝ)
  { sde := sde
    NT := NT
    k := k
    dtSqrt := Real.sqrt k
    x := (List.range (NT + 1)).map (gridFn k) }

/-- EulerFdm::advance: xn + Drift*dt + Diffusion*dtSqrt*normalVar, where
dtSqrt is the member computed at construction. -/
def eulerAdvance (f : Fdm) (xn tn dt normalVar : ℝ) : ℝ :=
  xn + f.sde.Drift xn tn * dt + f.sde.Diffusion xn tn * f.dtSqrt * normalVar

/-- MilsteinFdm::advance: the Euler update plus
0.5*dt*Diffusion*DiffusionDerivative*(Z*Z - 1); the diffusion term uses the
member dtSqrt computed at construction, not sqrt of the dt argument. -/
def milsteinAdvance (f : Fdm) (xn tn dt normalVar : ℝ) : ℝ :=
  xn + f.sde.Drift xn tn * dt + f.sde.Diffusion xn tn * f.dtSqrt * normalVar
    + 0.5 * dt * f.sde.Diffusion xn tn * f.sde.DiffusionDerivative xn tn
      * (normalVar * normalVar - 1)

/-- Modelled from the spec: the Milstein update of the scheme table with
s = sqrt(dt) of the advance argument, to be compared with
milsteinAdvance. -/
def specMilsteinUpdate (sde : Sde) (xn tn dt Z : ℝ) : ℝ :=
  xn + sde.Drift xn tn * dt + sde.Diffusion xn tn * Real.sqrt dt * Z
    + 0.5 * dt * sde.Diffusion xn tn * sde.DiffusionDerivative xn tn
      * (Z * Z - 1)

/-- ExactFdm::advance: S0 * exp((mu - alpha)*(tn + dt) + sig*sqrt(tn + dt)*Z)
with alpha = 0.5*sig*sig.  The current state xn is ignored. -/
def exactAdvance (S0 sig mu : ℝ) (_xn tn dt normalVar : ℝ) : ℝ :=
  let alpha := 0.5 * sig * sig
  S0 * Real.exp ((mu - alpha) * (tn + dt) + sig * Real.sqrt (tn + dt) * normalVar)

/-! ## MCMediator.hpp : the orchestration loop

The mediator holds an Sde, an Fdm and an Rng and, on start(), generates
NSim paths sequentially, emitting a mis event every 100 iterations, a path
event after each generated path, and a single finish event at the end.
The Rng is modelled as the stream zs of the values its successive
GenerateRn() calls return; path i consumes draws i*NT .. i*NT + NT - 1. -/

/-- The events the mediator emits through its three signals. -/
inductive MCEvent where
  | pathEv : List ℝ → MCEvent
  | misEv : ℕ → MCEvent
  | finishEv : MCEvent

/-- Entry n of the path the mediator builds in res: res[0] is the model
initial condition, res[n] = fdm->advance(res[n-1], fdm->x[n-1], fdm->k, draw).
base is the stream position of the first draw this path consumes. -/
def mcEntry (adv : ℝ → ℝ → ℝ → ℝ → ℝ) (f : Fdm) (sde : Sde) (zs : ℕ → ℝ)
    (base : ℕ) : ℕ → ℝ
  | 0 => sde.ic
  | n + 1 => adv (mcEntry adv f sde zs base n) (f.x.getD n 0) f.k (zs (base + n))

/-- The full contents of res after the inner loop of start() for path i. -/
def mcRes (adv : ℝ → ℝ → ℝ → ℝ → ℝ) (f : Fdm) (sde : Sde) (zs : ℕ → ℝ)
    (i : ℕ) : List ℝ :=
  (List.range (f.NT + 1)).map (mcEntry adv f sde zs (i * f.NT))

/-- The events emitted by the first m iterations of the outer loop of
start(): per iteration a mis event when i % 100 == 0, then the path event
carrying the generated path. -/
def mcEvents (adv : ℝ → ℝ → ℝ → ℝ → ℝ) (f : Fdm) (sde : Sde) (zs : ℕ → ℝ) :
    ℕ → List MCEvent
  | 0 => []
  | m + 1 =>
      mcEvents adv f sde zs m
        ++ ((if m % 100 = 0 then [MCEvent.misEv m] else [])
              ++ [MCEvent.pathEv (mcRes adv f sde zs m)])

/-- MCMediator::start with NSim = M: the loop events followed by the single
finish event. -/
def mcStart (adv : ℝ → ℝ → ℝ → ℝ → ℝ) (f : Fdm) (sde : Sde) (zs : ℕ → ℝ)
    (M : ℕ) : List MCEvent :=
  mcEvents adv f sde zs M ++ [MCEvent.finishEv]

/-- Projection selecting path events and their payloads. -/
def pathPayload : MCEvent → Option (List ℝ)
  | MCEvent.pathEv p => some p
  | _ => none

/-- Recognizer of the finish event. -/
def isFinish : MCEvent → Bool
  | MCEvent.finishEv => true
  | _ => false

/-! ## Pricers.hpp : the payoff accumulators

Each pricer holds a running sum, a path counter NSim and a price, all
zero-initialized (the members sum2 of BarrierPricer/BrownianBridgePricer
and counter of BrownianBridgePricer are written but never read and are
omitted).  ProcessPath is Option-valued: none models the undefined
path.back() of an empty vector (European, Barrier, BrownianBridge) and the
NaN produced by dividing by a zero path length (Asian). -/

/-- The accumulator state shared by the four pricers: running sum, number
of processed paths and the finalized price. -/
structure PState where
  sum : ℝ
  NSim : ℕ
  price : ℝ

/-- The constructor state of every pricer: sum = 0, NSim = 0, price = 0. -/
def pricerInit : PState := ⟨0, 0, 0⟩

/-- Common shape of ProcessPath: compute this path's contribution to the
sum (none when the computation is undefined), add it and increment NSim. -/
def mkProc {α : Type} (contrib : α → Option ℝ) (s : PState) (a : α) :
    Option PState :=
  (contrib a).map fun c => ⟨s.sum + c, s.NSim + 1, s.price⟩

/-- PostProcess, identical in all four pricers:
price = DiscountFactor() * sum / NSim. -/
def pricerPostProcess (df : ℝ) (s : PState) : PState :=
  ⟨s.sum, s.NSim, df * s.sum / (s.NSim : ℝ)⟩

/-- A sequence of ProcessPath calls, stopping at the first undefined one. -/
def runPaths {α : Type} (proc : PState → α → Option PState) :
    PState → List α → Option PState
  | s, [] => some s
  | s, a :: rest => (proc s a).bind fun s' => runPaths proc s' rest

/-- EuropeanPricer::ProcessPath contribution: m_payoff(path.back()). -/
def euroContrib (payoff : ℝ → ℝ) (path : List ℝ) : Option ℝ :=
  (path.getLast?).map payoff

/-- EuropeanPricer::ProcessPath. -/
def europeanProcessPath (payoff : ℝ → ℝ) : PState → List ℝ → Option PState :=
  mkProc (euroContrib payoff)

/-- AsianPricer::Average: accumulate the path and divide by its size. -/
def asianAverage (path : List ℝ) : ℝ := path.sum / (path.length : ℝ)

/-- AsianPricer::ProcessPath contribution: m_payoff(Average(path)); on an
empty path Average divides by a zero length, modelled as none. -/
def asianContrib (payoff : ℝ → ℝ) (path : List ℝ) : Option ℝ :=
  if path.isEmpty then none else some (payoff (asianAverage path))

/-- AsianPricer::ProcessPath. -/
def asianProcessPath (payoff : ℝ → ℝ) : PState → List ℝ → Option PState :=
  mkProc (asianContrib payoff)

/-- The knock-out scan of BarrierPricer::ProcessPath: some sampled value of
the path reaches the barrier L (the loop with break is observationally the
iterated disjunction). -/
def barKnocked (L : ℝ) : List ℝ → Prop
  | [] => False
  | v :: rest => L ≤ v ∨ barKnocked L rest

/-- BarrierPricer::ProcessPath contribution with the hardcoded L = 170 and
rebate = 0: the rebate when knocked out, m_payoff(path.back()) otherwise. -/
def barrierContrib (payoff : ℝ → ℝ) (path : List ℝ) : Option ℝ :=
  let L : ℝ := 170
  let rebate : ℝ := 0
  if barKnocked L path then some rebate else (path.getLast?).map payoff

/-- BarrierPricer::ProcessPath. -/
def barrierProcessPath (payoff : ℝ → ℝ) : PState → List ℝ → Option PState :=
  mkProc (barrierContrib payoff)

/-- The bridge probability of BrownianBridgePricer::ProcessPath:
P = exp(-2*(L - prev)*(L - cur) / (tmp*tmp*dt)) with
tmp = sde->Diffusion(prev, t). -/
def bridgeP (diffusion : ℝ → ℝ → ℝ) (L dt prev cur t : ℝ) : ℝ :=
  Real.exp (-2 * (L - prev) * (L - cur) / (diffusion prev t * diffusion prev t * dt))

/-- The loop of BrownianBridgePricer::ProcessPath starting at pair index m
(the pair (path[m], path[m+1]) of the original path): prev is path[m], the
list holds path[m+1..].  Each iteration evaluates the diffusion at
(prev, m*dt), draws u = us m from the dedicated uniform generator, counts
P >= u occurrences, and stops with a crossing when cur >= L or P >= u.
Returns (crossed, counter increment). -/
def bbLoop (diffusion : ℝ → ℝ → ℝ) (L dt : ℝ) (us : ℕ → ℝ) :
    ℝ → ℕ → List ℝ → Bool × ℕ
  | _prev, _m, [] => (false, 0)
  | prev, m, cur :: rest =>
      let P := bridgeP diffusion L dt prev cur ((m : ℝ) * dt)
      let u := us m
      let c : ℕ := if u ≤ P then 1 else 0
      if L ≤ cur ∨ u ≤ P then (true, c)
      else
        let r := bbLoop diffusion L dt us cur (m + 1) rest
        (r.1, c + r.2)

/-- The crossed flag computed by the loop of
BrownianBridgePricer::ProcessPath over a whole path. -/
def bbCrossedB (diffusion : ℝ → ℝ → ℝ) (L dt : ℝ) (us : ℕ → ℝ) :
    List ℝ → Bool
  | [] => false
  | p0 :: rest => (bbLoop diffusion L dt us p0 0 rest).1

/-- BrownianBridgePricer::ProcessPath contribution with the hardcoded
L = 170 and rebate = 0: the rebate when the loop detects a crossing,
m_payoff(path.back()) otherwise. -/
def bbContrib (payoff : ℝ → ℝ) (sde : Sde) (dt : ℝ) (us : ℕ → ℝ)
    (path : List ℝ) : Option ℝ :=
  let L : ℝ := 170
  let rebate : ℝ := 0
  if bbCrossedB sde.Diffusion L dt us path then some rebate
  else (path.getLast?).map payoff

/-- BrownianBridgePricer::ProcessPath; us is the stream of uniforms the
pricer's dedicated generator returns during this call. -/
def brownianBridgeProcessPath (payoff : ℝ → ℝ) (sde : Sde) (dt : ℝ)
    (us : ℕ → ℝ) : PState → List ℝ → Option PState :=
  mkProc (bbContrib payoff sde dt us)

/-- BrownianBridgePricer::ProcessPath over (path, dedicated-generator
stream) pairs, each call consuming its own stream of uniforms, for runs of
several calls. -/
def bbProcPair (payoff : ℝ → ℝ) (sde : Sde) (dt : ℝ) :
    PState → List ℝ × (ℕ → ℝ) → Option PState :=
  mkProc fun a => bbContrib payoff sde dt a.2 a.1

/-- The crossing condition of the claim on the bridge pricer, amended to
the indices the code inspects: some sampled value at a positive index
reaches the barrier, or some consecutive pair's bridge probability reaches
the uniform drawn for it. -/
def bbSpecCrossed (diffusion : ℝ → ℝ → ℝ) (L dt : ℝ) (us : ℕ → ℝ)
    (path : List ℝ) : Prop :=
  ∃ m, m + 1 < path.length ∧
    (L ≤ path.getD (m + 1) 0 ∨
      us m ≤ bridgeP diffusion L dt (path.getD m 0) (path.getD (m + 1) 0)
        ((m : ℝ) * dt))

/-- Modelled from the spec: the crossing condition as the claim states it,
with the barrier test over every sampled value of the path (index 0
included). -/
def bbClaimCrossed (diffusion : ℝ → ℝ → ℝ) (L dt : ℝ) (us : ℕ → ℝ)
    (path : List ℝ) : Prop :=
  (∃ v ∈ path, L ≤ v) ∨
    ∃ m, m + 1 < path.length ∧
      us m ≤ bridgeP diffusion L dt (path.getD m 0) (path.getD (m + 1) 0)
        ((m : ℝ) * dt)

/-! ## Concrete instances used by witnesses and counterexamples -/

/-- An identity payoff used by witnesses. -/
def payoffEx : ℝ → ℝ := fun x => x

/-- A constant uniform stream used by witnesses. -/
def constOne : ℕ → ℝ := fun _ => 1

/-- A lognormal model instance used by witnesses: GBM(0, 1, 0, 1, 1). -/
def sdeEx : Sde := GBM 0 1 0 1 1

/-- A scheme instance used by witnesses. -/
def fEx : Fdm := mkFdm sdeEx 2

/-- A simple advance function used by mediator witnesses. -/
def advEx : ℝ → ℝ → ℝ → ℝ → ℝ := fun x _t _dt z => x + z

/-- A constant variate stream used by mediator witnesses. -/
def zsEx : ℕ → ℝ := fun _ => 1

/-! ## Helper lemmas -/

/-- The grid recurrence in closed form: gridFn k n = n * k. -/
lemma gridFn_eq_mul (k : ℝ) : ∀ n : ℕ, gridFn k n = (n : ℝ) * k := by
  intro n
  induction n with
  | zero => simp [gridFn]
  | succ m ih =>
      rw [gridFn, ih]
      push_cast
      ring

/-- Indexing a mapped range below its length. -/
lemma getD_range_map (g : ℕ → ℝ) (m n : ℕ) (h : n < m) :
    ((List.range m).map g).getD n 0 = g n := by
  simp [List.getD_eq_getElem?_getD, List.getElem?_map, List.getElem?_range h]

/-- The mesh point of index m of a constructed scheme is m * k. -/
lemma mkFdm_x_getD (sde : Sde) (NT m : ℕ) (hm : m < NT + 1) :
    (mkFdm sde NT).x.getD m 0 = (m : ℝ) * (mkFdm sde NT).k := by
  simp only [mkFdm]
  rw [getD_range_map _ _ _ hm, gridFn_eq_mul]

/-- Unfolding a defined ProcessPath call: the contribution exists, is added
to the sum, NSim increments and the price is untouched. -/
lemma mkProc_some {α : Type} (c : α → Option ℝ) (s s' : PState) (a : α)
    (h : mkProc c s a = some s') :
    s'.NSim = s.NSim + 1 ∧ s'.price = s.price ∧
      ∃ v, c a = some v ∧ s'.sum = s.sum + v := by
  cases hc : c a with
  | none => rw [mkProc, hc] at h; cases h
  | some v =>
      rw [mkProc, hc] at h
      simp only [Option.map_some', Option.some.injEq] at h
      subst h
      exact ⟨rfl, rfl, v, rfl, rfl⟩

/-- Over a defined run, NSim grows by the number of calls and the price is
untouched. -/
lemma runPaths_nsim_price {α : Type} (c : α → Option ℝ) :
    ∀ (l : List α) (s s' : PState),
      runPaths (mkProc c) s l = some s' →
      s'.NSim = s.NSim + l.length ∧ s'.price = s.price := by
  intro l
  induction l with
  | nil =>
      intro s s' h
      rw [runPaths] at h
      cases h
      exact ⟨rfl, rfl⟩
  | cons a rest ih =>
      intro s s' h
      rw [runPaths] at h
      cases hp : mkProc c s a with
      | none => rw [hp] at h; cases h
      | some s1 =>
          rw [hp, Option.some_bind] at h
          obtain ⟨h1, h2, -⟩ := mkProc_some c s s1 a hp
          obtain ⟨h3, h4⟩ := ih s1 s' h
          refine ⟨?_, h4.trans h2⟩
          rw [h3, h1, List.length_cons]
          omega

/-- The European pricer processes the single path [1]. -/
lemma euroRunEx : runPaths (europeanProcessPath payoffEx) pricerInit [[1]]
    = some ⟨0 + payoffEx 1, 0 + 1, 0⟩ := rfl

/-- The Asian pricer processes the single path [1]. -/
lemma asianRunEx : runPaths (asianProcessPath payoffEx) pricerInit [[1]]
    = some ⟨0 + payoffEx (asianAverage [1]), 0 + 1, 0⟩ := rfl

/-- The path [1] stays below the barrier. -/
lemma barKnockedEx_false : ¬ barKnocked 170 [(1 : ℝ)] := by
  norm_num [barKnocked]

/-- The Barrier pricer processes the single path [1]. -/
lemma barrierRunEx : runPaths (barrierProcessPath payoffEx) pricerInit [[1]]
    = some ⟨0 + payoffEx 1, 0 + 1, 0⟩ := by
  simp only [runPaths, barrierProcessPath, mkProc, barrierContrib]
  rw [if_neg barKnockedEx_false]
  rfl

/-- The bridge loop does not report a crossing on the path [1, 2] when the
dedicated generator returns the constant 1. -/
lemma bbCrossedEx_false :
    bbCrossedB sdeEx.Diffusion 170 1 constOne [1, 2] = false := by
  have hP : bridgeP sdeEx.Diffusion 170 1 1 2 (((0 : ℕ) : ℝ) * 1) < 1 := by
    rw [bridgeP]
    apply Real.exp_lt_one_iff.mpr
    norm_num [sdeEx, GBM]
  have hc : ¬ ((170 : ℝ) ≤ 2 ∨
      constOne 0 ≤ bridgeP sdeEx.Diffusion 170 1 1 2 (((0 : ℕ) : ℝ) * 1)) := by
    push_neg
    exact ⟨by norm_num, by simpa [constOne] using hP⟩
  simp only [bbCrossedB, bbLoop]
  rw [if_neg hc]

/-- The bridge pricer processes the single path [1, 2] with a constant
dedicated stream. -/
lemma bbRunEx : runPaths (bbProcPair payoffEx sdeEx 1) pricerInit
    [([1, 2], constOne)] = some ⟨0 + payoffEx 2, 0 + 1, 0⟩ := by
  simp only [runPaths, bbProcPair, mkProc, bbContrib, bbCrossedEx_false]
  rfl

/-- The crossed flag of the bridge loop holds exactly when some inspected
pair triggers the barrier test on its right element or the bridge
probability test against the uniform drawn for it. -/
lemma bbLoop_fst_iff (diffusion : ℝ → ℝ → ℝ) (L dt : ℝ) (us : ℕ → ℝ) :
    ∀ (rest : List ℝ) (prev : ℝ) (m : ℕ),
      (bbLoop diffusion L dt us prev m rest).1 = true ↔
        ∃ j, j < rest.length ∧
          (L ≤ rest.getD j 0 ∨
            us (m + j) ≤ bridgeP diffusion L dt ((prev :: rest).getD j 0)
              (rest.getD j 0) (((m + j : ℕ) : ℝ) * dt)) := by
  intro rest
  induction rest with
  | nil =>
      intro prev m
      simp [bbLoop]
  | cons cur rest' ih =>
      intro prev m
      by_cases hc : L ≤ cur ∨ us m ≤ bridgeP diffusion L dt prev cur ((m : ℝ) * dt)
      · simp only [bbLoop]
        rw [if_pos hc]
        constructor
        · intro _
          refine ⟨0, by simp, ?_⟩
          simpa using hc
        · intro _
          rfl
      · have hL : (bbLoop diffusion L dt us prev m (cur :: rest')).1
            = (bbLoop diffusion L dt us cur (m + 1) rest').1 := by
          simp only [bbLoop]
          rw [if_neg hc]
        rw [hL, ih cur (m + 1)]
        constructor
        · rintro ⟨j, hj, hcond⟩
          refine ⟨j + 1, by simp only [List.length_cons]; omega, ?_⟩
          have e3 : m + (j + 1) = m + 1 + j := by omega
          rw [show (cur :: rest').getD (j + 1) 0 = rest'.getD j 0 from rfl,
            show (prev :: cur :: rest').getD (j + 1) 0 = (cur :: rest').getD j 0 from rfl,
            e3]
          exact hcond
        · rintro ⟨j, hj, hcond⟩
          cases j with
          | zero =>
              exact absurd (by simpa using hcond) hc
          | succ j' =>
              refine ⟨j', by simp only [List.length_cons] at hj; omega, ?_⟩
              have e3 : m + (j' + 1) = m + 1 + j' := by omega
              rw [show (cur :: rest').getD (j' + 1) 0 = rest'.getD j' 0 from rfl,
                show (prev :: cur :: rest').getD (j' + 1) 0 = (cur :: rest').getD j' 0 from rfl,
                e3] at hcond
              exact hcond

/-- The crossed flag of BrownianBridgePricer::ProcessPath over a whole
path matches the amended specification condition. -/
lemma bbCrossedB_iff (diffusion : ℝ → ℝ → ℝ) (L dt : ℝ) (us : ℕ → ℝ)
    (path : List ℝ) :
    bbCrossedB diffusion L dt us path = true ↔
      bbSpecCrossed diffusion L dt us path := by
  cases path with
  | nil =>
      simp [bbCrossedB, bbSpecCrossed]
  | cons p0 rest =>
      rw [show bbCrossedB diffusion L dt us (p0 :: rest)
          = (bbLoop diffusion L dt us p0 0 rest).1 from rfl,
        bbLoop_fst_iff]
      unfold bbSpecCrossed
      constructor
      · rintro ⟨j, hj, h⟩
        refine ⟨j, by simp only [List.length_cons]; omega, ?_⟩
        simp only [Nat.zero_add] at h
        exact h
      · rintro ⟨m, hm, h⟩
        refine ⟨m, by simp only [List.length_cons] at hm; omega, ?_⟩
        simp only [Nat.zero_add]
        exact h

/-- A nonnegative payoff used by witnesses. -/
def payoffOne : ℝ → ℝ := fun _ => 1

/-- The European pricer processes the single path [1] under the constant
payoff. -/
lemma euroRunOneEx : runPaths (europeanProcessPath payoffOne) pricerInit [[1]]
    = some ⟨0 + payoffOne 1, 0 + 1, 0⟩ := rfl

/-- The Barrier pricer processes the single path [1] under the constant
payoff. -/
lemma barrierRunOneEx : runPaths (barrierProcessPath payoffOne) pricerInit [[1]]
    = some ⟨0 + payoffOne 1, 0 + 1, 0⟩ := by
  simp only [runPaths, barrierProcessPath, mkProc, barrierContrib]
  rw [if_neg barKnockedEx_false]
  rfl

/-- Path by path, the Barrier pricer's running sum stays below the
European pricer's when the payoff is nonnegative: the knocked-out paths
contribute the zero rebate instead of the nonnegative terminal payoff. -/
lemma barrier_le_euro_sum (payoff : ℝ → ℝ) (hpay : ∀ x, 0 ≤ payoff x) :
    ∀ (paths : List (List ℝ)) (sV0 sB0 sV sB : PState),
      runPaths (europeanProcessPath payoff) sV0 paths = some sV →
      runPaths (barrierProcessPath payoff) sB0 paths = some sB →
      sB0.sum ≤ sV0.sum → sB.sum ≤ sV.sum := by
  intro paths
  induction paths with
  | nil =>
      intro sV0 sB0 sV sB hV hB hle
      rw [runPaths] at hV hB
      cases hV
      cases hB
      exact hle
  | cons p rest ih =>
      intro sV0 sB0 sV sB hV hB hle
      rw [runPaths] at hV hB
      cases hVp : europeanProcessPath payoff sV0 p with
      | none => rw [hVp] at hV; cases hV
      | some sV1 =>
          rw [hVp, Option.some_bind] at hV
          cases hBp : barrierProcessPath payoff sB0 p with
          | none => rw [hBp] at hB; cases hB
          | some sB1 =>
              rw [hBp, Option.some_bind] at hB
              refine ih sV1 sB1 sV sB hV hB ?_
              have hVp' : mkProc (euroContrib payoff) sV0 p = some sV1 := hVp
              have hBp' : mkProc (barrierContrib payoff) sB0 p = some sB1 := hBp
              obtain ⟨-, -, v, hv, hsumV⟩ := mkProc_some _ sV0 sV1 p hVp'
              obtain ⟨-, -, w, hw, hsumB⟩ := mkProc_some _ sB0 sB1 p hBp'
              rw [euroContrib] at hv
              simp only [barrierContrib] at hw
              cases hl : p.getLast? with
              | none => rw [hl] at hv; cases hv
              | some last =>
                  rw [hl] at hv
                  simp only [Option.map_some', Option.some.injEq] at hv
                  by_cases hk : barKnocked 170 p
                  · rw [if_pos hk] at hw
                    simp only [Option.some.injEq] at hw
                    rw [hsumV, hsumB, ← hw, ← hv]
                    have := hpay last
                    linarith
                  · rw [if_neg hk, hl] at hw
                    simp only [Option.map_some', Option.some.injEq] at hw
                    rw [hsumV, hsumB, ← hw, ← hv]
                    linarith

/-! ## Claim theorems -/

/-- Claim C3: for an identical list of paths, a nonnegative payoff, a
nonnegative discount factor (rebate 0 in the code), the Barrier pricer's
finalized price never exceeds the European (Vanilla) pricer's finalized
price. -/
theorem barrier_price_le_vanilla_price (payoff : ℝ → ℝ) (df : ℝ)
    (hpay : ∀ x, 0 ≤ payoff x) (hdf : 0 ≤ df)
    (paths : List (List ℝ)) (sV sB : PState)
    (hV : runPaths (europeanProcessPath payoff) pricerInit paths = some sV)
    (hB : runPaths (barrierProcessPath payoff) pricerInit paths = some sB) :
    (pricerPostProcess df sB).price ≤ (pricerPostProcess df sV).price := by
  have hsum : sB.sum ≤ sV.sum :=
    barrier_le_euro_sum payoff hpay paths pricerInit pricerInit sV sB hV hB le_rfl
  obtain ⟨hVn, -⟩ := runPaths_nsim_price (euroContrib payoff) paths pricerInit sV hV
  obtain ⟨hBn, -⟩ := runPaths_nsim_price (barrierContrib payoff) paths pricerInit sB hB
  have hnn : sB.NSim = sV.NSim := by rw [hVn, hBn]
  show df * sB.sum / ((sB.NSim : ℕ) : ℝ) ≤ df * sV.sum / ((sV.NSim : ℕ) : ℝ)
  rw [hnn]
  rcases Nat.eq_zero_or_pos sV.NSim with h0 | hpos
  · rw [h0]
    simp
  · have hc : (0 : ℝ) < ((sV.NSim : ℕ) : ℝ) := by exact_mod_cast hpos
    exact (div_le_div_iff_of_pos_right hc).mpr (mul_le_mul_of_nonneg_left hsum hdf)

/-- Claim C1, amended: a defined BrownianBridgePricer::ProcessPath call
records a crossing (and then adds the rebate 0 instead of the terminal
payoff) if and only if some sampled value at a positive index reaches the
barrier L = 170 or some consecutive pair's bridge probability
P = exp(-2(L - path[n-1])(L - path[n]) / (sigma_local^2 dt)) reaches the
fresh uniform drawn for that pair from the dedicated generator; the value
sampled at index 0 itself is not tested against the barrier. -/
theorem bb_process_path_spec (payoff : ℝ → ℝ) (sde : Sde) (dt : ℝ)
    (us : ℕ → ℝ) (s s' : PState) (path : List ℝ)
    (h : brownianBridgeProcessPath payoff sde dt us s path = some s') :
    (bbCrossedB sde.Diffusion 170 dt us path = true
      ↔ bbSpecCrossed sde.Diffusion 170 dt us path) ∧
    s'.NSim = s.NSim + 1 ∧
    s'.sum = s.sum + (if bbSpecCrossed sde.Diffusion 170 dt us path then 0
      else payoff (path.getLastD 0)) := by
  have h' : mkProc (bbContrib payoff sde dt us) s path = some s' := h
  obtain ⟨hn, -, v, hv, hsum⟩ := mkProc_some _ s s' path h'
  refine ⟨bbCrossedB_iff _ _ _ _ _, hn, ?_⟩
  simp only [bbContrib] at hv
  by_cases hb : bbCrossedB sde.Diffusion 170 dt us path = true
  · rw [if_pos ((bbCrossedB_iff _ _ _ _ _).mp hb)]
    rw [if_pos hb] at hv
    simp only [Option.some.injEq] at hv
    rw [hsum, ← hv]
  · rw [if_neg (fun hs => hb ((bbCrossedB_iff _ _ _ _ _).mpr hs))]
    rw [if_neg hb] at hv
    cases hl : path.getLast? with
    | none => rw [hl] at hv; cases hv
    | some last =>
        rw [hl] at hv
        simp only [Option.map_some', Option.some.injEq] at hv
        have hld : path.getLastD 0 = last := by
          rw [List.getLastD_eq_getLast?, hl]
          rfl
        rw [hsum, ← hv, hld]

/-- Claim C1, counterexample to the original statement: on the
single-element path [180] the claim's crossing condition holds (180 is a
sampled value reaching the barrier 170), yet the code's loop never runs,
records no crossing and adds the terminal payoff 180 instead of the
rebate. -/
theorem bb_crossing_claim_cex :
    bbClaimCrossed sdeEx.Diffusion 170 1 constOne [180] ∧
    bbCrossedB sdeEx.Diffusion 170 1 constOne [180] = false ∧
    brownianBridgeProcessPath payoffEx sdeEx 1 constOne pricerInit [180]
      = some ⟨0 + payoffEx 180, 0 + 1, 0⟩ ∧
    (0 : ℝ) + payoffEx 180 ≠ 0 := by
  refine ⟨Or.inl ⟨180, by simp, by norm_num⟩, rfl, rfl, by norm_num [payoffEx]⟩

/-- Witness for bb_process_path_spec on the path [1, 2]. -/
theorem bb_process_path_spec_witness :
    (bbCrossedB sdeEx.Diffusion 170 1 constOne [1, 2] = true
      ↔ bbSpecCrossed sdeEx.Diffusion 170 1 constOne [1, 2]) ∧
    (⟨0 + payoffEx 2, 0 + 1, 0⟩ : PState).NSim = pricerInit.NSim + 1 ∧
    (⟨0 + payoffEx 2, 0 + 1, 0⟩ : PState).sum = pricerInit.sum
      + (if bbSpecCrossed sdeEx.Diffusion 170 1 constOne [1, 2] then 0
         else payoffEx ([1, 2].getLastD 0)) :=
  bb_process_path_spec payoffEx sdeEx 1 constOne pricerInit
    ⟨0 + payoffEx 2, 0 + 1, 0⟩ [1, 2] (by
      simp only [brownianBridgeProcessPath, mkProc, bbContrib, bbCrossedEx_false]
      rfl)

/-- Witness for barrier_price_le_vanilla_price on the single path [1]. -/
theorem barrier_le_vanilla_witness :
    (pricerPostProcess 1 ⟨0 + payoffOne 1, 0 + 1, 0⟩).price
      ≤ (pricerPostProcess 1 ⟨0 + payoffOne 1, 0 + 1, 0⟩).price :=
  barrier_price_le_vanilla_price payoffOne 1
    (fun x => by norm_num [payoffOne]) (by norm_num) [[1]] _ _
    euroRunOneEx barrierRunOneEx

/-- Claim C5: the Exact scheme's advance ignores the current state: for any
two states x and y with the same (t_n, dt, Z) it returns the same value,
namely S0 * exp((mu - 0.5*sigma^2)*(t_n + dt) + sigma*sqrt(t_n + dt)*Z). -/
theorem exact_advance_spec (S0 sig mu x y tn dt Z : ℝ) :
    exactAdvance S0 sig mu x tn dt Z = exactAdvance S0 sig mu y tn dt Z ∧
    exactAdvance S0 sig mu x tn dt Z =
      S0 * Real.exp ((mu - 0.5 * sig ^ 2) * (tn + dt)
        + sig * Real.sqrt (tn + dt) * Z) := by
  refine ⟨rfl, ?_⟩
  simp only [exactAdvance]
  ring_nf

/-- Claim C6, counterexample: for the CEV model built with coefficient
sigma = 1, exponent beta = 0 and initial condition 4, the diffusion at
x = 1 is 4, not the claimed sigma * x^beta = 1: the constructor rescales
the coefficient by S0^(1-beta). -/
theorem cev_diffusion_cex :
    (CEV 0 1 0 4 1 0).Diffusion 1 0 ≠ specCEVDiffusion 1 0 1 := by
  simp only [CEV, specCEVDiffusion]
  norm_num

/-- Claim C6, amended: for the elasticity-of-variance model with coefficient
sigma, exponent beta and initial condition S0, the diffusion satisfies
diffusion(x, t) = sigma * S0^(1-beta) * x^beta for every x > 0 and t. -/
theorem cev_diffusion_spec (mu sigma d icv T beta x t : ℝ) (_hx : 0 < x) :
    (CEV mu sigma d icv T beta).Diffusion x t
      = sigma * icv ^ ((1 : ℝ) - beta) * x ^ beta := by
  simp only [CEV]

/-- Witness for cev_diffusion_spec at x = 1. -/
theorem cev_diffusion_spec_witness :
    (CEV 0 1 0 4 1 0).Diffusion 1 0 = 1 * (4 : ℝ) ^ ((1 : ℝ) - 0) * (1 : ℝ) ^ (0 : ℝ) :=
  cev_diffusion_spec 0 1 0 4 1 0 1 0 (by norm_num)

/-- Claim C4, counterexample: the Milstein advance uses the member
dtSqrt = sqrt(k) fixed at construction, not sqrt of the dt argument: for a
scheme built with expiry 1 and one subdivision (k = 1), advancing with
dt = 4 returns 2 while the claimed formula with s = sqrt(4) returns 3. -/
theorem milstein_advance_cex :
    milsteinAdvance (mkFdm sdeEx 1) 1 0 4 1 ≠ specMilsteinUpdate sdeEx 1 0 4 1 := by
  have hs4 : Real.sqrt 4 = 2 := by
    rw [show (4 : ℝ) = 2 ^ 2 by norm_num, Real.sqrt_sq (by norm_num : (0 : ℝ) ≤ 2)]
  simp only [milsteinAdvance, specMilsteinUpdate, mkFdm, sdeEx, GBM]
  norm_num [hs4]

/-- Claim C4, amended: whenever the step dt passed to advance equals the
scheme's construction step k = T/N (as in every call the orchestrator
makes), the Milstein advance returns the Euler update x_n + a*dt + b*s*Z
plus the correction 0.5*dt*b*b'*(Z^2 - 1) with s = sqrt(dt). -/
theorem milstein_advance_spec (sde : Sde) (NT : ℕ) (xn tn dt Z : ℝ)
    (h : dt = (mkFdm sde NT).k) :
    milsteinAdvance (mkFdm sde NT) xn tn dt Z = specMilsteinUpdate sde xn tn dt Z := by
  subst h
  rfl

/-- Witness for milstein_advance_spec at the construction step. -/
theorem milstein_advance_spec_witness :
    milsteinAdvance (mkFdm sdeEx 1) 1 0 ((mkFdm sdeEx 1).k) 1
      = specMilsteinUpdate sdeEx 1 0 ((mkFdm sdeEx 1).k) 1 :=
  milstein_advance_spec sdeEx 1 1 0 ((mkFdm sdeEx 1).k) 1 rfl

/-- Claim C7: for a scheme built with expiry T > 0 and N >= 1 subdivisions,
the grid has N+1 points, starts at 0, ends at T, is spaced by k = T/N and
is strictly increasing (stated at an arbitrary interior index n < N). -/
theorem fdm_grid_spec (sde : Sde) (NT n : ℕ) (hT : 0 < sde.expiry)
    (hN : 1 ≤ NT) (hn : n < NT) :
    (mkFdm sde NT).x.length = NT + 1 ∧
    (mkFdm sde NT).k = sde.expiry / (NT : ℝ) ∧
    (mkFdm sde NT).x.getD 0 0 = 0 ∧
    (mkFdm sde NT).x.getD NT 0 = sde.expiry ∧
    (mkFdm sde NT).x.getD (n + 1) 0
      = (mkFdm sde NT).x.getD n 0 + (mkFdm sde NT).k ∧
    (mkFdm sde NT).x.getD n 0 < (mkFdm sde NT).x.getD (n + 1) 0 := by
  have hNT0 : 0 < NT := hN
  have hcast : (0 : ℝ) < (NT : ℝ) := by exact_mod_cast hNT0
  have hkdef : (mkFdm sde NT).k = sde.expiry / (NT : ℝ) := rfl
  have hk : 0 < (mkFdm sde NT).k := by
    rw [hkdef]
    exact div_pos hT hcast
  refine ⟨by simp [mkFdm], hkdef, ?_, ?_, ?_, ?_⟩
  · rw [mkFdm_x_getD _ _ _ (by omega)]
    simp
  · rw [mkFdm_x_getD _ _ _ (by omega), hkdef]
    field_simp
  · rw [mkFdm_x_getD _ _ _ (by omega), mkFdm_x_getD _ _ _ (by omega)]
    push_cast
    ring
  · rw [mkFdm_x_getD _ _ _ (by omega), mkFdm_x_getD _ _ _ (by omega)]
    have : (n : ℝ) < (n : ℝ) + 1 := by linarith
    push_cast
    nlinarith [hk]

/-- The mediator's loop events project to the dispatched paths in order. -/
lemma mcEvents_filterMap (adv : ℝ → ℝ → ℝ → ℝ → ℝ) (f : Fdm) (sde : Sde)
    (zs : ℕ → ℝ) : ∀ M : ℕ,
    (mcEvents adv f sde zs M).filterMap pathPayload
      = (List.range M).map (mcRes adv f sde zs) := by
  intro M
  induction M with
  | zero => simp [mcEvents]
  | succ m ih =>
      rw [mcEvents, List.filterMap_append, ih, List.range_succ, List.map_append]
      congr 1
      by_cases h : m % 100 = 0 <;> simp [h, pathPayload]

/-- The mediator's loop emits no finish event. -/
lemma mcEvents_countP_finish (adv : ℝ → ℝ → ℝ → ℝ → ℝ) (f : Fdm) (sde : Sde)
    (zs : ℕ → ℝ) : ∀ M : ℕ, (mcEvents adv f sde zs M).countP isFinish = 0 := by
  intro M
  induction M with
  | zero => simp [mcEvents]
  | succ m ih =>
      rw [mcEvents]
      by_cases h : m % 100 = 0 <;>
        simp [h, List.countP_append, ih, isFinish, List.countP_cons]

/-- Claim C2: MCMediator::start with M paths emits the path-completed
events for paths 0, 1, ..., M-1 in that order, each carrying the fully
generated path (entry 0 is the model's initial condition, entry n+1 is
advance applied to entry n, the grid time, the step and the next draw of
the generator, path i consuming draws i*N, ..., i*N + N - 1), and emits a
single completion event, strictly after all path events. -/
theorem mediator_start_spec (adv : ℝ → ℝ → ℝ → ℝ → ℝ) (f : Fdm) (sde : Sde)
    (zs : ℕ → ℝ) (M i n : ℕ) (hn : n < f.NT) :
    (mcStart adv f sde zs M).filterMap pathPayload
      = (List.range M).map (mcRes adv f sde zs) ∧
    (mcStart adv f sde zs M).getLast? = some MCEvent.finishEv ∧
    (mcStart adv f sde zs M).countP isFinish = 1 ∧
    (mcRes adv f sde zs i).length = f.NT + 1 ∧
    (mcRes adv f sde zs i).getD 0 0 = sde.ic ∧
    (mcRes adv f sde zs i).getD (n + 1) 0
      = adv ((mcRes adv f sde zs i).getD n 0) (f.x.getD n 0) f.k
          (zs (i * f.NT + n)) := by
  refine ⟨?_, ?_, ?_, ?_, ?_, ?_⟩
  · rw [mcStart, List.filterMap_append, mcEvents_filterMap]
    simp [pathPayload]
  · rw [mcStart]
    exact List.getLast?_concat _
  · rw [mcStart, List.countP_append, mcEvents_countP_finish]
    simp [isFinish]
  · simp [mcRes]
  · rw [mcRes, getD_range_map _ _ _ (by omega)]
    rfl
  · rw [mcRes, getD_range_map _ _ _ (by omega), getD_range_map _ _ _ (by omega)]
    rfl

/-- Witness for mediator_start_spec with the example components,
M = 3 paths, path i = 0, step n = 0. -/
theorem mediator_start_spec_witness :
    (mcStart advEx fEx sdeEx zsEx 3).filterMap pathPayload
      = (List.range 3).map (mcRes advEx fEx sdeEx zsEx) ∧
    (mcStart advEx fEx sdeEx zsEx 3).getLast? = some MCEvent.finishEv ∧
    (mcStart advEx fEx sdeEx zsEx 3).countP isFinish = 1 ∧
    (mcRes advEx fEx sdeEx zsEx 0).length = fEx.NT + 1 ∧
    (mcRes advEx fEx sdeEx zsEx 0).getD 0 0 = sdeEx.ic ∧
    (mcRes advEx fEx sdeEx zsEx 0).getD (0 + 1) 0
      = advEx ((mcRes advEx fEx sdeEx zsEx 0).getD 0 0) (fEx.x.getD 0 0) fEx.k
          (zsEx (0 * fEx.NT + 0)) :=
  mediator_start_spec advEx fEx sdeEx zsEx 3 0 0 (by norm_num [fEx, mkFdm])

/-- Claim C8: for each of the four pricers, after processing k paths the
finalized price is discountFactor * sum / k (NSim counts exactly the
processed paths); after zero paths the accumulated counter NSim, the
divisor of postProcess, is 0, so postProcess divides by zero. -/
theorem pricers_postprocess_spec (payoff : ℝ → ℝ) (df : ℝ) (sde : Sde)
    (dt : ℝ) (pe pa pb : List (List ℝ)) (pbb : List (List ℝ × (ℕ → ℝ)))
    (sE sA sB sBB : PState)
    (hE : runPaths (europeanProcessPath payoff) pricerInit pe = some sE)
    (hA : runPaths (asianProcessPath payoff) pricerInit pa = some sA)
    (hB : runPaths (barrierProcessPath payoff) pricerInit pb = some sB)
    (hBB : runPaths (bbProcPair payoff sde dt) pricerInit pbb = some sBB) :
    sE.NSim = pe.length ∧
      (pricerPostProcess df sE).price = df * sE.sum / (pe.length : ℝ) ∧
    sA.NSim = pa.length ∧
      (pricerPostProcess df sA).price = df * sA.sum / (pa.length : ℝ) ∧
    sB.NSim = pb.length ∧
      (pricerPostProcess df sB).price = df * sB.sum / (pb.length : ℝ) ∧
    sBB.NSim = pbb.length ∧
      (pricerPostProcess df sBB).price = df * sBB.sum / (pbb.length : ℝ) ∧
    pricerInit.NSim = 0 := by
  have hBB' : runPaths (mkProc fun a : List ℝ × (ℕ → ℝ) =>
      bbContrib payoff sde dt a.2 a.1) pricerInit pbb = some sBB := hBB
  obtain ⟨hE1, -⟩ := runPaths_nsim_price (euroContrib payoff) pe pricerInit sE hE
  obtain ⟨hA1, -⟩ := runPaths_nsim_price (asianContrib payoff) pa pricerInit sA hA
  obtain ⟨hB1, -⟩ := runPaths_nsim_price (barrierContrib payoff) pb pricerInit sB hB
  obtain ⟨hBB1, -⟩ := runPaths_nsim_price _ pbb pricerInit sBB hBB'
  simp only [pricerInit] at hE1 hA1 hB1 hBB1
  have hE1' : sE.NSim = pe.length := by omega
  have hA1' : sA.NSim = pa.length := by omega
  have hB1' : sB.NSim = pb.length := by omega
  have hBB1' : sBB.NSim = pbb.length := by omega
  refine ⟨hE1', ?_, hA1', ?_, hB1', ?_, hBB1', ?_, rfl⟩
  · show df * sE.sum / ((sE.NSim : ℕ) : ℝ) = _
    rw [hE1']
  · show df * sA.sum / ((sA.NSim : ℕ) : ℝ) = _
    rw [hA1']
  · show df * sB.sum / ((sB.NSim : ℕ) : ℝ) = _
    rw [hB1']
  · show df * sBB.sum / ((sBB.NSim : ℕ) : ℝ) = _
    rw [hBB1']

/-- Witness for pricers_postprocess_spec: one path per pricer. -/
theorem pricers_postprocess_spec_witness :
    (⟨0 + payoffEx 1, 0 + 1, 0⟩ : PState).NSim = [[(1 : ℝ)]].length ∧
      (pricerPostProcess 1 ⟨0 + payoffEx 1, 0 + 1, 0⟩).price
        = 1 * (⟨0 + payoffEx 1, 0 + 1, 0⟩ : PState).sum / (([[(1 : ℝ)]].length : ℕ) : ℝ) :=
  ⟨(pricers_postprocess_spec payoffEx 1 sdeEx 1 [[1]] [[1]] [[1]]
      [([1, 2], constOne)] _ _ _ _ euroRunEx asianRunEx barrierRunEx bbRunEx).1,
   (pricers_postprocess_spec payoffEx 1 sdeEx 1 [[1]] [[1]] [[1]]
      [([1, 2], constOne)] _ _ _ _ euroRunEx asianRunEx barrierRunEx bbRunEx).2.1⟩

/-- Claim C10: for each of the four pricers the price field is 0 at
construction and remains 0 after any number of processPath calls: only
postProcess assigns it. -/
theorem pricers_price_zero_before_postprocess (payoff : ℝ → ℝ) (sde : Sde)
    (dt : ℝ) (pe pa pb : List (List ℝ)) (pbb : List (List ℝ × (ℕ → ℝ)))
    (sE sA sB sBB : PState)
    (hE : runPaths (europeanProcessPath payoff) pricerInit pe = some sE)
    (hA : runPaths (asianProcessPath payoff) pricerInit pa = some sA)
    (hB : runPaths (barrierProcessPath payoff) pricerInit pb = some sB)
    (hBB : runPaths (bbProcPair payoff sde dt) pricerInit pbb = some sBB) :
    sE.price = 0 ∧ sA.price = 0 ∧ sB.price = 0 ∧ sBB.price = 0 ∧
      pricerInit.price = 0 := by
  have hBB' : runPaths (mkProc fun a : List ℝ × (ℕ → ℝ) =>
      bbContrib payoff sde dt a.2 a.1) pricerInit pbb = some sBB := hBB
  obtain ⟨-, hE2⟩ := runPaths_nsim_price (euroContrib payoff) pe pricerInit sE hE
  obtain ⟨-, hA2⟩ := runPaths_nsim_price (asianContrib payoff) pa pricerInit sA hA
  obtain ⟨-, hB2⟩ := runPaths_nsim_price (barrierContrib payoff) pb pricerInit sB hB
  obtain ⟨-, hBB2⟩ := runPaths_nsim_price _ pbb pricerInit sBB hBB'
  exact ⟨hE2, hA2, hB2, hBB2, rfl⟩

/-- Witness for pricers_price_zero_before_postprocess: one path per pricer. -/
theorem pricers_price_zero_witness :
    (⟨0 + payoffEx 1, 0 + 1, 0⟩ : PState).price = 0 ∧
      (⟨0 + payoffEx (asianAverage [1]), 0 + 1, 0⟩ : PState).price = 0 :=
  ⟨(pricers_price_zero_before_postprocess payoffEx sdeEx 1 [[1]] [[1]] [[1]]
      [([1, 2], constOne)] _ _ _ _ euroRunEx asianRunEx barrierRunEx bbRunEx).1,
   (pricers_price_zero_before_postprocess payoffEx sdeEx 1 [[1]] [[1]] [[1]]
      [([1, 2], constOne)] _ _ _ _ euroRunEx asianRunEx barrierRunEx bbRunEx).2.1⟩

/-- Claim C9: each pricer's processPath is defined exactly on non-empty
paths (the last-element access of the European, Barrier and bridge pricers
and the Asian average's division need a non-empty path), and for a
non-empty path the Asian average's divisor, the path length, is positive. -/
theorem pricers_nonempty_path_spec (payoff : ℝ → ℝ) (sde : Sde) (dt : ℝ)
    (us : ℕ → ℝ) (s : PState) (p : List ℝ) :
    (europeanProcessPath payoff s p).isSome = !p.isEmpty ∧
    (asianProcessPath payoff s p).isSome = !p.isEmpty ∧
    (barrierProcessPath payoff s p).isSome = !p.isEmpty ∧
    (brownianBridgeProcessPath payoff sde dt us s p).isSome = !p.isEmpty ∧
    (p.isEmpty = true ∨ (0 : ℝ) < (p.length : ℝ)) := by
  cases p with
  | nil =>
      refine ⟨rfl, rfl, ?_, rfl, Or.inl rfl⟩
      simp only [barrierProcessPath, mkProc, barrierContrib]
      rw [if_neg (by simp [barKnocked] : ¬ barKnocked 170 ([] : List ℝ))]
      rfl
  | cons v rest =>
      have hlast : ((v :: rest).getLast?).isSome = true := by
        rw [List.getLast?_isSome]
        simp
      refine ⟨?_, ?_, ?_, ?_, Or.inr ?_⟩
      · simp [europeanProcessPath, mkProc, euroContrib, hlast]
      · simp [asianProcessPath, mkProc, asianContrib]
      · by_cases hk : barKnocked 170 (v :: rest)
        · simp only [barrierProcessPath, mkProc, barrierContrib]
          rw [if_pos hk]
          rfl
        · simp only [barrierProcessPath, mkProc, barrierContrib]
          rw [if_neg hk]
          simp [hlast]
      · cases hb : bbCrossedB sde.Diffusion 170 dt us (v :: rest) <;>
          simp [brownianBridgeProcessPath, mkProc, bbContrib, hb, hlast]
      · have : 0 < (v :: rest).length := Nat.succ_pos _
        exact_mod_cast this

/-- Witness for fdm_grid_spec with T = 1, N = 2, n = 0. -/
theorem fdm_grid_spec_witness :
    (mkFdm sdeEx 2).x.length = 2 + 1 ∧
    (mkFdm sdeEx 2).k = sdeEx.expiry / ((2 : ℕ) : ℝ) ∧
    (mkFdm sdeEx 2).x.getD 0 0 = 0 ∧
    (mkFdm sdeEx 2).x.getD 2 0 = sdeEx.expiry ∧
    (mkFdm sdeEx 2).x.getD (0 + 1) 0
      = (mkFdm sdeEx 2).x.getD 0 0 + (mkFdm sdeEx 2).k ∧
    (mkFdm sdeEx 2).x.getD 0 0 < (mkFdm sdeEx 2).x.getD (0 + 1) 0 :=
  fdm_grid_spec sdeEx 2 0 (by norm_num [sdeEx, GBM]) (by norm_num) (by norm_num)

end


